import Mathlib

/-!
Verification of the `hikvision_isapi_events` integration core against its
natural-language specification.

The Python sources are shallowly embedded: pure functions become Lean
functions over `List Char` (written `Str` below) and `Int`/`Nat`; the stateful
channel manager becomes explicit state passing plus a reachability relation;
the event-loop timer set is modelled as an explicit list of pending
`(timer id, channel id)` entries.
-/

namespace HikVerify

/-- Characters of a Python `str`, embedded as a list of characters. -/
abbrev Str := List Char

/-! ## Reconnect supervisor (`__init__.py`, `_run_stream`)

One loop iteration awaits `client.stream_alerts(...)`.  A session either
returns normally (`ok`) or raises (`err`); `docs` counts the documents decoded
during the session.  The documents are handled entirely inside
`stream_alerts` via the callback and never touch the supervisor's local
`backoff` variable, which the embedding makes explicit. -/

/-- Outcome of one `stream_alerts` session observed by `_run_stream`. -/
inductive SessionOutcome where
  | ok (docs : Nat)
  | err (docs : Nat)
deriving DecidableEq

/-- Whether the session coroutine returned normally. -/
def SessionOutcome.isOk : SessionOutcome → Bool
  | .ok _ => true
  | .err _ => false

/-- Sleeps performed by the `while` loop of `_run_stream`, given the base
reconnect delay, the current `backoff` value and the list of session outcomes
until the stop event ends the loop.  On a normal return the code runs
`backoff = reconnect_delay`; on an exception it runs `await
asyncio.sleep(backoff)` followed by `backoff = min(backoff * 2, 60)`. -/
def streamSleeps (base : Nat) : Nat → List SessionOutcome → List Nat
  | _, [] => []
  | _, .ok _ :: rest => streamSleeps base base rest
  | backoff, .err _ :: rest => backoff :: streamSleeps base (min (backoff * 2) 60) rest

/-- The supervisor clamps the configured reconnect delay with
`reconnect_delay = max(1, reconnect_delay)` and starts `backoff` there. -/
def runStreamSleeps (configured : Int) (hist : List SessionOutcome) : List Nat :=
  streamSleeps (max 1 configured).toNat (max 1 configured).toNat hist

lemma streamSleeps_replicate_err (k i : Nat) :
    streamSleeps 5 (min (5 * 2 ^ i) 60) (List.replicate k (.err 0)) =
      (List.range k).map (fun j => min (5 * 2 ^ (i + j)) 60) := by
  induction k generalizing i with
  | zero => simp [streamSleeps]
  | succ k ih =>
    rw [List.replicate_succ, streamSleeps]
    have hpow : (5 : Nat) * 2 ^ (i + 1) = 5 * 2 ^ i * 2 := by ring
    have h2 : min (min (5 * 2 ^ i) 60 * 2) 60 = min (5 * 2 ^ (i + 1)) 60 := by
      omega
    rw [h2, ih (i + 1), List.range_succ_eq_map]
    simp only [List.map_cons, List.map_map, Function.comp]
    refine congrArg₂ _ (by simp) ?_
    apply List.map_congr_left
    intro j _
    simp only [Function.comp_apply, Nat.succ_eq_add_one]
    have hij : i + 1 + j = i + (j + 1) := by omega
    rw [hij]

/-- C7: with reconnect base delay 5 and cap 60, a run of consecutive stream
failures with no intervening success produces sleeps
min (5 * 2 ^ i) 60 for the i-th failure, i.e. 5, 10, 20, 40, 60, 60, 60, …
(each failure doubles the current delay, capped at 60), and one successful
streaming session resets the wait applied to the next failure back to the
base 5. -/
theorem backoff_sequence_and_reset :
    (∀ k : Nat, streamSleeps 5 5 (List.replicate k (.err 0)) =
        (List.range k).map (fun i => min (5 * 2 ^ i) 60)) ∧
    (streamSleeps 5 5 (List.replicate 7 (.err 0)) = [5, 10, 20, 40, 60, 60, 60]) ∧
    (∀ (b d docs : Nat) (rest : List SessionOutcome),
        streamSleeps 5 b (.ok docs :: .err d :: rest) =
          5 :: streamSleeps 5 10 rest) := by
  refine ⟨?_, by decide, ?_⟩
  · intro k
    have h := streamSleeps_replicate_err k 0
    simpa using h
  · intro b d docs rest
    simp [streamSleeps]

/-- C1 counterexample: the claim predicts that a session which delivered one
decoded document and then failed waits the base delay 5 before reconnecting,
but `_run_stream` only resets `backoff` when `stream_alerts` returns
normally, so after a first failed session (sleep 5, backoff doubled to 10) a
second session that decodes one document and then raises sleeps 10, not 5. -/
theorem per_document_backoff_reset_refuted :
    streamSleeps 5 5 [.err 0, .err 1] = [5, 10] ∧
    streamSleeps 5 5 [.err 0, .err 1] ≠ [5, 5] := by decide

/-- C1 (amended): decoded documents have no effect on the reconnect backoff:
the sleep sequence depends only on whether each session returned normally or
raised, never on the number of documents the session decoded; the backoff is
reset to its base value exactly by a session that returns normally. -/
theorem backoff_ignores_documents :
    (∀ (base b : Nat) (h1 h2 : List SessionOutcome),
        h1.map SessionOutcome.isOk = h2.map SessionOutcome.isOk →
        streamSleeps base b h1 = streamSleeps base b h2) ∧
    (∀ (base b docs : Nat) (rest : List SessionOutcome),
        streamSleeps base b (.ok docs :: rest) = streamSleeps base base rest) := by
  constructor
  · intro base b h1 h2 hmap
    induction h1 generalizing b h2 with
    | nil =>
      cases h2 with
      | nil => rfl
      | cons x xs => simp at hmap
    | cons x xs ih =>
      cases h2 with
      | nil => simp at hmap
      | cons y ys =>
        simp only [List.map_cons, List.cons.injEq] at hmap
        obtain ⟨hxy, hrest⟩ := hmap
        cases x <;> cases y <;> simp [SessionOutcome.isOk] at hxy <;>
          simp [streamSleeps, ih _ _ hrest]
  · intro base b docs rest
    simp [streamSleeps]

/-- Witness for the amended C1 theorem at a concrete input: two histories with
the same ok/err shape but different document counts produce the same sleeps. -/
theorem backoff_ignores_documents_witness :
    streamSleeps 5 5 [.err 0, .err 3, .ok 2] = streamSleeps 5 5 [.err 7, .err 0, .ok 9] :=
  backoff_ignores_documents.1 5 5 _ _ (by decide)

/-! ## Decoded event records (`parsing.py`, `parse_event_notification`)

The decoder returns a Python dict with exactly these five keys; the embedding
uses a typed record with optional fields. -/

/-- The dictionary built by `parse_event_notification`. -/
structure EventRecord where
  event_type : Option Str
  event_state : Option Str
  channel_id : Option Int
  target_type : Option Str
  date_time : Option Str
deriving DecidableEq

/-! ## Channel state machine (`__init__.py`, `ChannelManager`)

State objects are held in the `_states` dict; Python's in-place object
mutation is modelled by an explicit write-back (`setState`).  The asyncio
event loop's outstanding timers are modelled as the `pending` list of
`(timer id, channel id)` entries together with a fresh-id counter; listener
callbacks are modelled by the list of notifications an operation emits. -/

/-- A notification delivered to registered listeners. -/
inductive Notif where
  | newChannel (ch : Int)
  | state (ch : Int)
deriving DecidableEq

/-- `ChannelState` dataclass: three activity flags, diagnostic fields, and
the optional pending auto-off timer handle (modelled by its id). -/
structure MChannelState where
  motion_on : Bool := false
  human_on : Bool := false
  vehicle_on : Bool := false
  last_event_datetime : Option Str := none
  last_event_state : Option Str := none
  last_target_type : Option Str := none
  last_event_type : Option Str := none
  off_timer : Option Nat := none
deriving DecidableEq

/-- `ChannelManager` together with the event loop's pending timers. -/
structure Manager where
  states : List (Int × MChannelState)
  timeouts : List (Int × Int)
  defaultOffDelay : Int
  pending : List (Nat × Int)
  nextTimerId : Nat
deriving DecidableEq

/-- Dict lookup (`d.get(k)` / `d[k]`). -/
def dictGet {α : Type} (l : List (Int × α)) (k : Int) : Option α :=
  (l.find? (fun p => p.1 == k)).map (fun p => p.2)

/-- Write-back of the in-place mutation of a value already present. -/
def dictSet {α : Type} (l : List (Int × α)) (k : Int) (v : α) : List (Int × α) :=
  l.map (fun p => if p.1 == k then (k, v) else p)

/-- Dict assignment `d[k] = v`: overwrite if present, append otherwise. -/
def dictInsert {α : Type} (l : List (Int × α)) (k : Int) (v : α) : List (Int × α) :=
  if (l.find? (fun p => p.1 == k)).isSome then dictSet l k v else l ++ [(k, v)]

/-- `ChannelManager._clamp_timeout`: clamp to `[MIN, MAX] = [0, 1800]`. -/
def clampTimeout (seconds : Int) : Int := max 0 (min 1800 seconds)

/-- `ChannelManager.__init__`: clamp the initial per-channel timeouts; no
states, no pending timers. -/
def initManager (initialTimeouts : List (Int × Int)) (defaultOffDelay : Int) : Manager :=
  { states := []
    timeouts := initialTimeouts.map (fun p => (p.1, clampTimeout p.2))
    defaultOffDelay := defaultOffDelay
    pending := []
    nextTimerId := 0 }

/-- `ChannelManager.get_state`: get or lazily create a channel state; on
creation the channel listeners are notified before returning. -/
def getState (m : Manager) (ch : Int) : MChannelState × Manager × List Notif :=
  match dictGet m.states ch with
  | some s => (s, m, [])
  | none =>
      let s : MChannelState := {}
      (s, { m with states := m.states ++ [(ch, s)] }, [.newChannel ch])

/-- Write a (mutated) state object back into the `_states` dict. -/
def setState (m : Manager) (ch : Int) (s : MChannelState) : Manager :=
  { m with states := dictSet m.states ch s }

/-- `ChannelManager.get_channel_timeout`: per-channel override or the clamped
global default. -/
def getChannelTimeout (m : Manager) (ch : Int) : Int :=
  (dictGet m.timeouts ch).getD (clampTimeout m.defaultOffDelay)

/-- `ChannelManager.async_set_channel_timeout` (persistence is external). -/
def setChannelTimeout (m : Manager) (ch : Int) (seconds : Int) : Manager :=
  { m with timeouts := dictInsert m.timeouts ch (clampTimeout seconds) }

/-- `ChannelManager._cancel_timer`: cancel the state's pending handle, if
any, and clear the field. -/
def cancelTimer (m : Manager) (s : MChannelState) : Manager × MChannelState :=
  match s.off_timer with
  | none => (m, s)
  | some t =>
      ({ m with pending := m.pending.filter (fun p => p.1 != t) },
       { s with off_timer := none })

/-- `ChannelManager._timer_expire`: clear the three flags, set the diagnostic
state to "inactive", cancel the handle, notify state listeners. -/
def timerExpire (m : Manager) (ch : Int) : Manager × List Notif :=
  let r := getState m ch
  let s1 := { r.1 with
    motion_on := false
    human_on := false
    vehicle_on := false
    last_event_state := some ("inactive".toList) }
  let r2 := cancelTimer r.2.1 s1
  (setState r2.1 ch r2.2, r.2.2 ++ [.state ch])

/-- The event loop fires a pending timer: the handle leaves the loop's
pending set and its callback `_timer_expire` runs. -/
def fireTimer (m : Manager) (t : Nat) (ch : Int) : Manager × List Notif :=
  timerExpire { m with pending := m.pending.filter (fun p => p != (t, ch)) } ch

/-- `ChannelManager._schedule_off`: cancel any pending timer first; if the
resolved timeout is ≤ 0 schedule nothing, otherwise register a fresh
single-shot timer with the loop. -/
def scheduleOff (m : Manager) (ch : Int) : Manager × List Notif :=
  let r := getState m ch
  let r2 := cancelTimer r.2.1 r.1
  let delay := getChannelTimeout r2.1 ch
  if delay ≤ 0 then (setState r2.1 ch r2.2, r.2.2)
  else
    let t := r2.1.nextTimerId
    let m3 := setState r2.1 ch { r2.2 with off_timer := some t }
    ({ m3 with pending := m3.pending ++ [(t, ch)], nextTimerId := t + 1 }, r.2.2)

/-- Python `str.lower` restricted to the characters at hand. -/
def lowerS (s : Str) : Str := s.map Char.toLower

/-- `ChannelManager.process_event`. -/
def processEvent (m : Manager) (ev : EventRecord) : Manager × List Notif :=
  if ev.event_type ≠ some ("VMD".toList) then (m, [])
  else
    match ev.channel_id with
    | none => (m, [])
    | some ch =>
        let r := getState m ch
        let eventState := lowerS (ev.event_state.getD [])
        let targetType := lowerS (ev.target_type.getD [])
        let s1 := { r.1 with
          last_event_datetime := ev.date_time
          last_event_state := if eventState = [] then none else some eventState
          last_target_type := if targetType = [] then none else some targetType
          last_event_type := ev.event_type }
        if eventState = ("active".toList) then
          let s2 :=
            if targetType = ("human".toList) then
              { s1 with motion_on := true, human_on := true }
            else if targetType = ("vehicle".toList) then
              { s1 with motion_on := true, vehicle_on := true }
            else { s1 with motion_on := true }
          let m2 := setState r.2.1 ch s2
          let r3 := scheduleOff m2 ch
          (r3.1, r.2.2 ++ r3.2 ++ [.state ch])
        else if eventState = ("inactive".toList) then
          let s2 := { s1 with motion_on := false, human_on := false, vehicle_on := false }
          let r2 := cancelTimer r.2.1 s2
          (setState r2.1 ch r2.2, r.2.2 ++ [.state ch])
        else
          (setState r.2.1 ch s1, r.2.2 ++ [.state ch])

/-- `ChannelManager.add_discovered_channels`: eagerly create state for each
discovered id. -/
def addDiscoveredChannels (m : Manager) (channels : List Int) : Manager × List Notif :=
  channels.foldl (fun acc ch =>
    let r := getState acc.1 ch
    (r.2.1, acc.2 ++ r.2.2)) (m, [])

/-- One step of `ChannelManager.shutdown`: cancel one channel's timer. -/
def cancelChannelTimer (m : Manager) (ch : Int) : Manager :=
  match dictGet m.states ch with
  | none => m
  | some s =>
      let r := cancelTimer m s
      setState r.1 ch r.2

/-- `ChannelManager.shutdown`: cancel every channel's timer. -/
def shutdownM (m : Manager) : Manager :=
  (m.states.map (fun p => p.1)).foldl cancelChannelTimer m

/-- Public operations of the manager, plus the loop firing a timer. -/
inductive Step : Manager → Manager → Prop
  | processEvent (m : Manager) (ev : EventRecord) : Step m (processEvent m ev).1
  | fireTimer (m : Manager) (t : Nat) (ch : Int) (h : (t, ch) ∈ m.pending) :
      Step m (fireTimer m t ch).1
  | getState (m : Manager) (ch : Int) : Step m (getState m ch).2.1
  | addDiscovered (m : Manager) (channels : List Int) :
      Step m (addDiscoveredChannels m channels).1
  | setTimeout (m : Manager) (ch seconds : Int) : Step m (setChannelTimeout m ch seconds)
  | shutdown (m : Manager) : Step m (shutdownM m)

/-- States reachable from a freshly constructed manager. -/
inductive Reachable : Manager → Prop
  | init (initialTimeouts : List (Int × Int)) (d : Int) :
      Reachable (initManager initialTimeouts d)
  | step {m m' : Manager} : Reachable m → Step m m' → Reachable m'

/-- What cancelling a handle does to the loop's pending set. -/
def removePending : Option Nat → List (Nat × Int) → List (Nat × Int)
  | none, l => l
  | some t, l => l.filter (fun p => p.1 != t)

/-! ### Association-list lemmas -/

lemma dictGet_cons {α : Type} (p : Int × α) (l : List (Int × α)) (k : Int) :
    dictGet (p :: l) k = if p.1 == k then some p.2 else dictGet l k := by
  unfold dictGet
  rw [List.find?_cons]
  cases h : p.1 == k <;> simp [h]

lemma dictGet_dictSet_same {α : Type} (l : List (Int × α)) (k : Int) (v : α) :
    dictGet (dictSet l k v) k = (dictGet l k).map (fun _ => v) := by
  induction l with
  | nil => rfl
  | cons p l ih =>
    simp only [dictSet, List.map_cons] at *
    by_cases h : (p.1 == k) = true
    · rw [if_pos h, dictGet_cons, dictGet_cons, if_pos h, if_pos (by simp)]
      rfl
    · rw [if_neg h, dictGet_cons, dictGet_cons, if_neg h, if_neg h]
      exact ih

lemma dictGet_dictSet_other {α : Type} (l : List (Int × α)) (k k' : Int) (v : α)
    (h : k' ≠ k) :
    dictGet (dictSet l k v) k' = dictGet l k' := by
  induction l with
  | nil => rfl
  | cons p l ih =>
    simp only [dictSet, List.map_cons] at *
    by_cases hp : (p.1 == k) = true
    · have hk : (k == k') = false := by
        simp only [beq_eq_false_iff_ne]
        exact fun hkk => h hkk.symm
      have hp' : (p.1 == k') = false := by
        simp only [beq_eq_false_iff_ne]
        have : p.1 = k := by simpa using hp
        rw [this]
        exact fun hkk => h hkk.symm
      rw [if_pos hp, dictGet_cons, dictGet_cons]
      simp only [hk, hp', Bool.false_eq_true, if_false]
      exact ih
    · rw [if_neg hp, dictGet_cons, dictGet_cons]
      by_cases hq : (p.1 == k') = true
      · simp [hq]
      · simp only [hq, Bool.false_eq_true, if_false]
        exact ih

lemma dictGet_append_other {α : Type} (l : List (Int × α)) (ch k : Int) (s : α)
    (h : k ≠ ch) :
    dictGet (l ++ [(ch, s)]) k = dictGet l k := by
  induction l with
  | nil =>
    simp only [List.nil_append, dictGet_cons]
    have : (ch == k) = false := by
      simp only [beq_eq_false_iff_ne]
      exact fun hkk => h hkk.symm
    simp [this, dictGet]
  | cons p l ih =>
    simp only [List.cons_append, dictGet_cons, ih]

lemma dictGet_append_self {α : Type} (l : List (Int × α)) (ch : Int) (s : α)
    (h : dictGet l ch = none) :
    dictGet (l ++ [(ch, s)]) ch = some s := by
  induction l with
  | nil => simp [dictGet]
  | cons p l ih =>
    rw [List.cons_append, dictGet_cons]
    rw [dictGet_cons] at h
    by_cases hp : (p.1 == ch) = true
    · rw [if_pos hp] at h
      exact absurd h (by simp)
    · rw [if_neg hp] at h
      rw [if_neg hp]
      exact ih h

/-! ### The per-channel timer invariant -/

/-- Inductive invariant: pending timer ids are fresh bounded by the counter,
pairwise distinct, and each pending timer is exactly the one recorded in its
channel's `off_timer` field. -/
def Inv (m : Manager) : Prop :=
  (∀ p ∈ m.pending, p.1 < m.nextTimerId) ∧
  (m.pending.map (fun p => p.1)).Nodup ∧
  (∀ p ∈ m.pending, ∃ s, dictGet m.states p.2 = some s ∧ s.off_timer = some p.1)

lemma removePending_sublist (ot : Option Nat) (l : List (Nat × Int)) :
    (removePending ot l).Sublist l := by
  cases ot with
  | none => exact List.Sublist.refl l
  | some t => exact List.filter_sublist l

lemma cancelTimer_eq (m : Manager) (s : MChannelState) :
    cancelTimer m s =
      ({ m with pending := removePending s.off_timer m.pending },
       { s with off_timer := none }) := by
  obtain ⟨mo, hu, ve, a, b, c, d, ot⟩ := s
  cases ot with
  | none => rfl
  | some t => rfl

lemma inv_of_sublist (m : Manager) (l : List (Nat × Int)) (hInv : Inv m)
    (hsub : l.Sublist m.pending) : Inv { m with pending := l } := by
  obtain ⟨h1, h2, h3⟩ := hInv
  exact ⟨fun p hp => h1 p (hsub.subset hp),
         h2.sublist (hsub.map (fun p => p.1)),
         fun p hp => h3 p (hsub.subset hp)⟩

lemma no_pending_for_missing (m : Manager) (ch : Int) (hInv : Inv m)
    (hget : dictGet m.states ch = none) :
    ∀ p ∈ m.pending, p.2 ≠ ch := by
  intro p hp hch
  obtain ⟨s1, hs1, _⟩ := hInv.2.2 p hp
  rw [hch, hget] at hs1
  exact Option.noConfusion hs1

lemma no_pending_after_cancel (m : Manager) (ch : Int) (s0 : MChannelState)
    (hInv : Inv m) (hget : dictGet m.states ch = some s0) :
    ∀ p ∈ removePending s0.off_timer m.pending, p.2 ≠ ch := by
  intro p hp hch
  have hpmem : p ∈ m.pending := (removePending_sublist _ _).subset hp
  obtain ⟨s1, hs1, ho1⟩ := hInv.2.2 p hpmem
  rw [hch, hget] at hs1
  have hs10 : s1 = s0 := by injection hs1 with h; exact h.symm
  rw [hs10] at ho1
  rw [ho1] at hp
  simp only [removePending, List.mem_filter, bne_self_eq_false] at hp
  exact absurd hp.2 (by simp)

lemma inv_cancel_set (m : Manager) (ch : Int) (s0 s' : MChannelState)
    (hInv : Inv m) (hget : dictGet m.states ch = some s0) :
    Inv { m with pending := removePending s0.off_timer m.pending,
                 states := dictSet m.states ch s' } := by
  obtain ⟨h1, h2, h3⟩ := hInv
  have hsub := removePending_sublist s0.off_timer m.pending
  refine ⟨fun p hp => h1 p (hsub.subset hp),
          h2.sublist (hsub.map (fun p => p.1)), ?_⟩
  intro p hp
  have hch : p.2 ≠ ch := no_pending_after_cancel m ch s0 ⟨h1, h2, h3⟩ hget p hp
  obtain ⟨s1, hs1, ho1⟩ := h3 p (hsub.subset hp)
  exact ⟨s1, by rw [dictGet_dictSet_other _ _ _ _ hch]; exact hs1, ho1⟩

lemma inv_set_no_pending (m : Manager) (ch : Int) (s' : MChannelState)
    (hInv : Inv m) (hch : ∀ p ∈ m.pending, p.2 ≠ ch) :
    Inv { m with states := dictSet m.states ch s' } := by
  obtain ⟨h1, h2, h3⟩ := hInv
  refine ⟨h1, h2, ?_⟩
  intro p hp
  obtain ⟨s1, hs1, ho1⟩ := h3 p hp
  exact ⟨s1, by rw [dictGet_dictSet_other _ _ _ _ (hch p hp)]; exact hs1, ho1⟩

lemma inv_set_same_timer (m : Manager) (ch : Int) (s0 s' : MChannelState)
    (hInv : Inv m) (hget : dictGet m.states ch = some s0)
    (hot : s'.off_timer = s0.off_timer) :
    Inv { m with states := dictSet m.states ch s' } := by
  obtain ⟨h1, h2, h3⟩ := hInv
  refine ⟨h1, h2, ?_⟩
  intro p hp
  obtain ⟨s1, hs1, ho1⟩ := h3 p hp
  by_cases hpc : p.2 = ch
  · rw [hpc, hget] at hs1
    have hs10 : s1 = s0 := by injection hs1 with h; exact h.symm
    refine ⟨s', ?_, ?_⟩
    · rw [hpc, dictGet_dictSet_same, hget]
      rfl
    · rw [hot, ← hs10]
      exact ho1
  · exact ⟨s1, by rw [dictGet_dictSet_other _ _ _ _ hpc]; exact hs1, ho1⟩

lemma inv_append_state (m : Manager) (ch : Int) (hInv : Inv m)
    (hget : dictGet m.states ch = none) :
    Inv { m with states := m.states ++ [(ch, ({} : MChannelState))] } := by
  obtain ⟨h1, h2, h3⟩ := hInv
  refine ⟨h1, h2, ?_⟩
  intro p hp
  obtain ⟨s1, hs1, ho1⟩ := h3 p hp
  have hch : p.2 ≠ ch := no_pending_for_missing m ch ⟨h1, h2, h3⟩ hget p hp
  exact ⟨s1, by rw [dictGet_append_other _ _ _ _ hch]; exact hs1, ho1⟩

lemma inv_schedule (m : Manager) (ch : Int) (s0 s' : MChannelState)
    (hInv : Inv m) (hch : ∀ p ∈ m.pending, p.2 ≠ ch)
    (hpres : dictGet m.states ch = some s0)
    (hot : s'.off_timer = some m.nextTimerId) :
    Inv { m with pending := m.pending ++ [(m.nextTimerId, ch)],
                 states := dictSet m.states ch s',
                 nextTimerId := m.nextTimerId + 1 } := by
  obtain ⟨h1, h2, h3⟩ := hInv
  refine ⟨?_, ?_, ?_⟩
  · intro p hp
    rcases List.mem_append.1 hp with hp | hp
    · exact Nat.lt_succ_of_lt (h1 p hp)
    · simp only [List.mem_singleton] at hp
      rw [hp]
      exact Nat.lt_succ_self _
  · rw [List.map_append]
    apply List.Nodup.append h2 (by simp)
    intro t ht ht'
    simp only [List.map_cons, List.map_nil, List.mem_singleton] at ht'
    rw [ht'] at ht
    obtain ⟨p, hp, hp1⟩ := List.mem_map.1 ht
    exact absurd (hp1 ▸ h1 p hp) (lt_irrefl _)
  · intro p hp
    rcases List.mem_append.1 hp with hp | hp
    · obtain ⟨s1, hs1, ho1⟩ := h3 p hp
      exact ⟨s1, by rw [dictGet_dictSet_other _ _ _ _ (hch p hp)]; exact hs1, ho1⟩
    · simp only [List.mem_singleton] at hp
      rw [hp]
      refine ⟨s', ?_, hot⟩
      rw [dictGet_dictSet_same, hpres]
      rfl

lemma getState_found (m : Manager) (ch : Int) (s : MChannelState)
    (h : dictGet m.states ch = some s) : getState m ch = (s, m, []) := by
  simp [getState, h]

lemma getState_missing (m : Manager) (ch : Int)
    (h : dictGet m.states ch = none) :
    getState m ch = (({} : MChannelState),
      { m with states := m.states ++ [(ch, ({} : MChannelState))] },
      [.newChannel ch]) := by
  simp [getState, h]

lemma inv_getState_mgr (m : Manager) (ch : Int) (hInv : Inv m) :
    Inv (getState m ch).2.1 := by
  rcases hc : dictGet m.states ch with _ | s
  · rw [getState_missing m ch hc]
    exact inv_append_state m ch hInv hc
  · rw [getState_found m ch s hc]
    exact hInv

lemma inv_scheduleOff (m : Manager) (ch : Int) (hInv : Inv m) :
    Inv (scheduleOff m ch).1 ∧
    (getChannelTimeout m ch ≤ 0 →
      ∀ p ∈ (scheduleOff m ch).1.pending, p.2 ≠ ch) := by
  rcases hc : dictGet m.states ch with _ | s
  · have hg := getState_missing m ch hc
    have hgetA : dictGet (m.states ++ [(ch, ({} : MChannelState))]) ch =
        some ({} : MChannelState) := dictGet_append_self m.states ch _ hc
    have hInvA : Inv { m with states := m.states ++ [(ch, ({} : MChannelState))] } :=
      inv_append_state m ch hInv hc
    have hchA : ∀ p ∈ m.pending, p.2 ≠ ch := no_pending_for_missing m ch hInv hc
    simp only [scheduleOff, hg, cancelTimer_eq]
    split
    · refine ⟨?_, fun _ => ?_⟩
      · exact inv_set_same_timer _ ch ({} : MChannelState) _ hInvA hgetA rfl
      · exact hchA
    · refine ⟨?_, fun hle => ?_⟩
      · exact inv_schedule _ ch ({} : MChannelState) _ hInvA hchA hgetA rfl
      · rename_i hgt
        exact absurd hle hgt
  · have hg := getState_found m ch s hc
    have hInvC : Inv { m with pending := removePending s.off_timer m.pending } :=
      inv_of_sublist m _ hInv (removePending_sublist _ _)
    have hchC : ∀ p ∈ removePending s.off_timer m.pending, p.2 ≠ ch :=
      no_pending_after_cancel m ch s hInv hc
    simp only [scheduleOff, hg, cancelTimer_eq]
    split
    · refine ⟨?_, fun _ => ?_⟩
      · exact inv_cancel_set m ch s _ hInv hc
      · exact hchC
    · refine ⟨?_, fun hle => ?_⟩
      · exact inv_schedule { m with pending := removePending s.off_timer m.pending }
          ch s _ hInvC hchC hc rfl
      · rename_i hgt
        exact absurd hle hgt

lemma inv_timerExpire (m : Manager) (ch : Int) (hInv : Inv m) :
    Inv (timerExpire m ch).1 := by
  rcases hc : dictGet m.states ch with _ | s
  · have hg := getState_missing m ch hc
    have hgetA : dictGet (m.states ++ [(ch, ({} : MChannelState))]) ch =
        some ({} : MChannelState) := dictGet_append_self m.states ch _ hc
    have hInvA : Inv { m with states := m.states ++ [(ch, ({} : MChannelState))] } :=
      inv_append_state m ch hInv hc
    simp only [timerExpire, hg, cancelTimer_eq]
    exact inv_cancel_set _ ch ({} : MChannelState) _ hInvA hgetA
  · have hg := getState_found m ch s hc
    simp only [timerExpire, hg, cancelTimer_eq]
    exact inv_cancel_set m ch s _ hInv hc

lemma inv_fireTimer (m : Manager) (t : Nat) (ch : Int) (hInv : Inv m) :
    Inv (fireTimer m t ch).1 :=
  inv_timerExpire _ ch
    (inv_of_sublist m _ hInv (List.filter_sublist m.pending))

lemma inv_processEvent (m : Manager) (ev : EventRecord) (hInv : Inv m) :
    Inv (processEvent m ev).1 := by
  by_cases h1 : ev.event_type ≠ some ("VMD".toList)
  · simp only [processEvent, if_pos h1]
    exact hInv
  · rcases h2 : ev.channel_id with _ | ch
    · simp only [processEvent, if_neg h1, h2]
      exact hInv
    · rcases hc : dictGet m.states ch with _ | s
      · have hg := getState_missing m ch hc
        have hgetA : dictGet (m.states ++ [(ch, ({} : MChannelState))]) ch =
            some ({} : MChannelState) := dictGet_append_self m.states ch _ hc
        have hInvA : Inv { m with states := m.states ++ [(ch, ({} : MChannelState))] } :=
          inv_append_state m ch hInv hc
        simp only [processEvent, if_neg h1, h2, hg, cancelTimer_eq]
        split
        · exact (inv_scheduleOff _ ch
            (inv_set_same_timer _ ch ({} : MChannelState) _ hInvA hgetA
              (by split_ifs <;> rfl))).1
        · split
          · exact inv_cancel_set _ ch ({} : MChannelState) _ hInvA hgetA
          · exact inv_set_same_timer _ ch ({} : MChannelState) _ hInvA hgetA rfl
      · have hg := getState_found m ch s hc
        simp only [processEvent, if_neg h1, h2, hg, cancelTimer_eq]
        split
        · exact (inv_scheduleOff _ ch
            (inv_set_same_timer m ch s _ hInv hc (by split_ifs <;> rfl))).1
        · split
          · exact inv_cancel_set m ch s _ hInv hc
          · exact inv_set_same_timer m ch s _ hInv hc rfl

lemma inv_addDiscovered_aux (channels : List Int) :
    ∀ acc : Manager × List Notif, Inv acc.1 →
      Inv ((channels.foldl (fun acc ch =>
        let r := getState acc.1 ch
        (r.2.1, acc.2 ++ r.2.2)) acc)).1 := by
  induction channels with
  | nil => exact fun acc h => h
  | cons ch rest ih =>
    intro acc h
    exact ih _ (inv_getState_mgr _ _ h)

lemma inv_addDiscovered (m : Manager) (channels : List Int) (hInv : Inv m) :
    Inv (addDiscoveredChannels m channels).1 :=
  inv_addDiscovered_aux channels (m, []) hInv

lemma inv_cancelChannelTimer (m : Manager) (ch : Int) (hInv : Inv m) :
    Inv (cancelChannelTimer m ch) := by
  rcases hc : dictGet m.states ch with _ | s
  · simp only [cancelChannelTimer, hc]
    exact hInv
  · simp only [cancelChannelTimer, hc, cancelTimer_eq]
    exact inv_cancel_set m ch s _ hInv hc

lemma inv_foldl_cancel (l : List Int) :
    ∀ m : Manager, Inv m → Inv (l.foldl cancelChannelTimer m) := by
  induction l with
  | nil => exact fun m h => h
  | cons ch rest ih => exact fun m h => ih _ (inv_cancelChannelTimer m ch h)

lemma inv_shutdown (m : Manager) (hInv : Inv m) : Inv (shutdownM m) :=
  inv_foldl_cancel _ m hInv

lemma reachable_inv (m : Manager) (h : Reachable m) : Inv m := by
  induction h with
  | init ts d =>
    refine ⟨?_, ?_, ?_⟩ <;> simp [initManager]
  | step _ hs ih =>
    cases hs with
    | processEvent ev => exact inv_processEvent _ ev ih
    | fireTimer t ch _ => exact inv_fireTimer _ t ch ih
    | getState ch => exact inv_getState_mgr _ ch ih
    | addDiscovered chs => exact inv_addDiscovered _ chs ih
    | setTimeout ch secs => exact ih
    | shutdown => exact inv_shutdown _ ih

lemma countP_le_one_of_nodup_unique {α : Type} (l : List α) (P : α → Bool)
    (hnd : l.Nodup)
    (huniq : ∀ a ∈ l, ∀ b ∈ l, P a → P b → a = b) :
    l.countP P ≤ 1 := by
  induction l with
  | nil => simp
  | cons a l ih =>
    rw [List.countP_cons]
    rcases List.nodup_cons.1 hnd with ⟨hna, hnd'⟩
    by_cases hPa : P a
    · have hz : l.countP P = 0 := by
        rw [List.countP_eq_zero]
        intro b hb hPb
        have hba : b = a :=
          (huniq a (List.mem_cons_self a l) b (List.mem_cons_of_mem _ hb) hPa hPb).symm
        exact absurd (hba ▸ hb) hna
      simp [hz, hPa]
    · simp only [hPa, if_false]
      refine Nat.le_trans ?_ (ih hnd'
        (fun x hx y hy => huniq x (List.mem_cons_of_mem _ hx) y (List.mem_cons_of_mem _ hy)))
      simp

/-- C4: in every reachable state of a `ChannelManager`, each channel has at
most one pending auto-off timer, and when a channel's resolved timeout is
≤ 0, `_schedule_off` cancels any pending timer for the channel and schedules
nothing, leaving no pending timer for it. -/
theorem channel_timer_invariant (m : Manager) (h : Reachable m) :
    (∀ ch : Int, m.pending.countP (fun p => p.2 == ch) ≤ 1) ∧
    (∀ ch : Int, getChannelTimeout m ch ≤ 0 →
      ∀ p ∈ (scheduleOff m ch).1.pending, p.2 ≠ ch) := by
  have hInv := reachable_inv m h
  constructor
  · intro ch
    apply countP_le_one_of_nodup_unique
    · exact List.Nodup.of_map _ hInv.2.1
    · intro a ha b hb hPa hPb
      obtain ⟨sa, hsa, hoa⟩ := hInv.2.2 a ha
      obtain ⟨sb, hsb, hob⟩ := hInv.2.2 b hb
      have ha2 : a.2 = ch := by simpa using hPa
      have hb2 : b.2 = ch := by simpa using hPb
      rw [ha2] at hsa
      rw [hb2] at hsb
      rw [hsa] at hsb
      have hs : sb = sa := (Option.some.inj hsb).symm
      rw [hs, hoa] at hob
      have h1 : a.1 = b.1 := Option.some.inj hob
      exact Prod.ext h1 (ha2.trans hb2.symm)
  · intro ch hto
    exact (inv_scheduleOff m ch hInv).2 hto

/-- Witness for the C4 theorem at a concrete reachable state: a freshly
constructed manager with no overrides and default off delay 0. -/
theorem channel_timer_invariant_witness :
    (initManager [] 0).pending.countP (fun p => p.2 == (1 : Int)) ≤ 1 ∧
    ∀ p ∈ (scheduleOff (initManager [] 0) 1).1.pending, p.2 ≠ (1 : Int) := by
  have h := channel_timer_invariant (initManager [] 0) (Reachable.init [] 0)
  exact ⟨h.1 1, h.2 1 (by decide)⟩

/-- C10: for every decoded event whose `event_type` is not exactly "VMD" or
whose `channel_id` is not an integer, `ChannelManager.process_event` is a
complete no-op: the manager (states, timers, timeouts) is unchanged and no
listener is notified. -/
theorem process_event_frame (m : Manager) (ev : EventRecord)
    (h : ev.event_type ≠ some ("VMD".toList) ∨ ev.channel_id = none) :
    processEvent m ev = (m, []) := by
  by_cases h1 : ev.event_type ≠ some ("VMD".toList)
  · simp only [processEvent]
    rw [if_pos h1]
  · rcases h with h | h
    · exact absurd h h1
    · simp only [processEvent]
      rw [if_neg h1, h]

/-- Witness for the C10 theorem at a concrete input: a non-VMD event leaves a
fresh manager untouched and notifies nobody. -/
theorem process_event_frame_witness :
    processEvent (initManager [] 30)
      { event_type := some ("faceDetection".toList)
        event_state := some ("active".toList)
        channel_id := some 3
        target_type := none
        date_time := none } = (initManager [] 30, []) :=
  process_event_frame _ _ (Or.inl (by decide))

/-! ## Digest authentication (`isapi_client.py`, `DigestAuthState`)

`hashlib.md5` is external to the repository, so the hash is a parameter of
the embedding; the random client nonce (`cnonce`) likewise. -/

/-- Python `str.find(sub)`: index of the first occurrence, `None` standing in
for `-1`. -/
def findSub (pat : Str) : Str → Option Nat
  | [] => if pat = [] then some 0 else none
  | c :: rest =>
      if pat.isPrefixOf (c :: rest) then some 0
      else (findSub pat rest).map (fun i => i + 1)

/-- Python `sub in s`. -/
def containsSub (pat s : Str) : Bool := (findSub pat s).isSome

/-- `\w` of the digest pair regex. -/
def isWordChar (c : Char) : Bool := c.isAlphanum || c == '_'

/-- One attempted match of `(\w+)=(?:"([^"]*)"|([^,]+))` at the head of the
input: the greedy word run must be followed by `=`; then the quoted
alternative is tried first and falls back to a nonempty run of non-commas.
Returns the captured (key, value) and the remainder after the match. -/
def matchPairAt (s : Str) : Option ((Str × Str) × Str) :=
  let key := s.takeWhile isWordChar
  if key = [] then none
  else
    match s.drop key.length with
    | '=' :: rest =>
        match rest with
        | '"' :: rest2 =>
            let inner := rest2.takeWhile (fun c => c != '"')
            if inner.length < rest2.length then
              some ((key, inner), rest2.drop (inner.length + 1))
            else
              let v := rest.takeWhile (fun c => c != ',')
              some ((key, v), rest.drop v.length)
        | _ =>
            let v := rest.takeWhile (fun c => c != ',')
            if v = [] then none else some ((key, v), rest.drop v.length)
    | _ => none

/-- `re.finditer` scan: try a match at each position, consuming matches and
skipping one character otherwise.  Each step consumes at least one character,
so `s.length` fuel always suffices. -/
def findPairsF : Nat → Str → List (Str × Str)
  | 0, _ => []
  | _ + 1, [] => []
  | fuel + 1, c :: rest =>
      match matchPairAt (c :: rest) with
      | some (kv, rem) => kv :: findPairsF fuel rem
      | none => findPairsF fuel rest

/-- All digest `key=value` pairs found in a challenge payload. -/
def findPairs (s : Str) : List (Str × Str) := findPairsF s.length s

/-- Dict lookup for string keys. -/
def dictGetS {α : Type} (l : List (Str × α)) (k : Str) : Option α :=
  (l.find? (fun p => p.1 == k)).map (fun p => p.2)

/-- Dict assignment for string keys: overwrite if present, append otherwise. -/
def dictInsertS {α : Type} (l : List (Str × α)) (k : Str) (v : α) : List (Str × α) :=
  if (l.find? (fun p => p.1 == k)).isSome
  then l.map (fun p => if p.1 == k then (k, v) else p)
  else l ++ [(k, v)]

/-- The whitespace stripped by Python `str.strip()`. -/
def pySpace (c : Char) : Bool :=
  c == ' ' || c == '\t' || c == '\n' || c == '\r' || c == '\x0b' || c == '\x0c'

/-- Python `str.strip()`. -/
def stripPy (s : Str) : Str :=
  ((s.dropWhile pySpace).reverse.dropWhile pySpace).reverse

/-- Python truthiness of an optional string (`None` and `""` are falsy). -/
def pyTruthy (s : Option Str) : Option Str :=
  match s with
  | some [] => none
  | x => x

/-- `DigestAuthState`: credentials, the current challenge dict, and the nonce
count. -/
structure DigestState where
  username : Str
  password : Str
  challenge : List (Str × Str)
  nc : Nat
deriving DecidableEq

/-- `DigestAuthState.update_from_header`: no-op unless the header exists and
mentions "digest"; parse `key=value` pairs from the payload after the scheme
word; replace the whole challenge and reset the nonce count only when both
`realm` and `nonce` were found. -/
def update_from_header (st : DigestState) (header : Option Str) : DigestState :=
  match header with
  | none => st
  | some h =>
      if ¬ containsSub ("digest".toList) (lowerS h) then st
      else
        let payload := if h.contains ' ' then (h.dropWhile (fun c => c != ' ')).drop 1 else h
        let challenge := (findPairs payload).foldl
          (fun acc kv => dictInsertS acc (lowerS kv.1) (stripPy kv.2)) []
        if (dictGetS challenge ("realm".toList)).isSome &&
           (dictGetS challenge ("nonce".toList)).isSome
        then { st with challenge := challenge, nc := 0 }
        else st

/-- `f"{nc:08x}"`. -/
def toHex8 (n : Nat) : Str :=
  let d := Nat.toDigits 16 n
  List.replicate (8 - d.length) '0' ++ d

/-- The `parts` list assembled by `build_authorization`.  `algorithm=MD5` and
`qop=auth` are string literals in the source, not the server's advertised
values. -/
def authorizationParts (username realm nonce uri response ncValue cnonce : Str)
    (opq : Option Str) : List Str :=
  [("username=\"".toList) ++ username ++ ("\"".toList),
   ("realm=\"".toList) ++ realm ++ ("\"".toList),
   ("nonce=\"".toList) ++ nonce ++ ("\"".toList),
   ("uri=\"".toList) ++ uri ++ ("\"".toList),
   ("algorithm=MD5".toList),
   ("response=\"".toList) ++ response ++ ("\"".toList),
   ("qop=auth".toList),
   ("nc=".toList) ++ ncValue,
   ("cnonce=\"".toList) ++ cnonce ++ ("\"".toList)] ++
  (match pyTruthy opq with
   | some o => [("opaque=\"".toList) ++ o ++ ("\"".toList)]
   | none => [])

/-- `"Digest " + ", ".join(parts)`. -/
def joinParts (parts : List Str) : Str :=
  ("Digest ".toList) ++ List.intercalate (", ".toList) parts

/-- `DigestAuthState.build_authorization`: `None` without a usable challenge;
otherwise increment the nonce count and assemble the header, hashing the
`HA1:nonce:nc:cnonce:auth:HA2` chain.  The `qop` and `algorithm` the server
advertised are read but the former is unused and the latter only logged. -/
def build_authorization (md5 : Str → Str) (cnonce : Str) (st : DigestState)
    (method uri : Str) : Option Str × DigestState :=
  let challenge := st.challenge
  match pyTruthy (dictGetS challenge ("realm".toList)),
        pyTruthy (dictGetS challenge ("nonce".toList)) with
  | some realm, some nonce =>
      let _qop := (dictGetS challenge ("qop".toList)).getD ("auth".toList)
      let opq := dictGetS challenge ("opaque".toList)
      let _algorithm := (dictGetS challenge ("algorithm".toList)).getD ("MD5".toList)
      let nc := st.nc + 1
      let ncValue := toHex8 nc
      let ha1 := md5 (st.username ++ (":".toList) ++ realm ++ (":".toList) ++ st.password)
      let ha2 := md5 (method ++ (":".toList) ++ uri)
      let response := md5 (ha1 ++ (":".toList) ++ nonce ++ (":".toList) ++ ncValue ++
        (":".toList) ++ cnonce ++ (":auth:".toList) ++ ha2)
      (some (joinParts (authorizationParts st.username realm nonce uri response
          ncValue cnonce opq)),
       { st with nc := nc })
  | _, _ => (none, st)

/-! ## Request/retry logic (`isapi_client.py`, `HikvisionIsapiClient._request`) -/

/-- An HTTP response as far as `_request` inspects it. -/
structure HttpResponse where
  status : Nat
  wwwAuthenticate : Option Str
deriving DecidableEq

/-- `HikvisionIsapiClient._request` over an abstract transport: `server i` is
the response to the i-th HTTP request of this logical call.  Returns the
final response, the final digest state, and the Authorization headers of
each request actually issued. -/
def clientRequest (md5 : Str → Str) (cnonce1 cnonce2 : Str) (st : DigestState)
    (method path : Str) (server : Nat → HttpResponse)
    (allowRetryUnauthorized : Bool) :
    HttpResponse × DigestState × List (Option Str) :=
  let b1 := build_authorization md5 cnonce1 st method path
  let response := server 0
  if response.status ≠ 401 then (response, b1.2, [b1.1])
  else
    let st2 := update_from_header b1.2 response.wwwAuthenticate
    if ¬ allowRetryUnauthorized then (response, st2, [b1.1])
    else
      let b2 := build_authorization md5 cnonce2 st2 method path
      (server 1, b2.2, [b1.1, b2.1])

/-- Challenge state used in concrete digest computations: the server
advertises `qop="auth-int"` and `algorithm=SHA-256`. -/
def exChallengeState : DigestState :=
  { username := "admin".toList
    password := "pw".toList
    challenge := [("realm".toList, "r".toList), ("nonce".toList, "n".toList),
                  ("qop".toList, "auth-int".toList),
                  ("algorithm".toList, "SHA-256".toList)]
    nc := 0 }

/-- Same realm, nonce and (absent) opaque as `exChallengeState`, but with no
advertised qop or algorithm at all. -/
def exChallengeState2 : DigestState :=
  { username := "admin".toList
    password := "pw".toList
    challenge := [("realm".toList, "r".toList), ("nonce".toList, "n".toList)]
    nc := 0 }

set_option maxRecDepth 8192 in
/-- C5 counterexample: for a challenge advertising qop "auth-int" and
algorithm "SHA-256", the produced Authorization value does not contain the
server's values anywhere; it states the literals `qop=auth` and
`algorithm=MD5` instead, so the server's own qop and algorithm are not
relayed in the header fields. -/
theorem qop_algorithm_relay_refuted :
    dictGetS exChallengeState.challenge ("qop".toList) = some ("auth-int".toList) ∧
    dictGetS exChallengeState.challenge ("algorithm".toList) = some ("SHA-256".toList) ∧
    ((build_authorization (fun _ => ("x".toList)) ("c".toList) exChallengeState
        ("GET".toList) ("/p".toList)).1.map
      (fun h => (containsSub ("auth-int".toList) h, containsSub ("SHA-256".toList) h,
                 containsSub ("qop=auth".toList) h,
                 containsSub ("algorithm=MD5".toList) h)))
      = some (false, false, true, true) := by decide

/-- C5 (amended): `build_authorization` computes the digest response as
hash(HA1:nonce:nc:cnonce:"auth":HA2) with quality-of-protection "auth"
unconditionally, and its output is entirely independent of the qop and
algorithm values the server advertised — only the challenge's realm, nonce
and opaque matter — while the header fields produced always state `qop=auth`
and `algorithm=MD5` (see `authorizationParts`). -/
theorem digest_qop_always_auth (md5 : Str → Str) (cnonce : Str)
    (st1 st2 : DigestState) (method uri : Str)
    (hu : st1.username = st2.username) (hp : st1.password = st2.password)
    (hn : st1.nc = st2.nc)
    (hr : dictGetS st1.challenge ("realm".toList) =
      dictGetS st2.challenge ("realm".toList))
    (hno : dictGetS st1.challenge ("nonce".toList) =
      dictGetS st2.challenge ("nonce".toList))
    (hop : dictGetS st1.challenge ("opaque".toList) =
      dictGetS st2.challenge ("opaque".toList)) :
    (build_authorization md5 cnonce st1 method uri).1 =
      (build_authorization md5 cnonce st2 method uri).1 ∧
    (∀ realm nonce,
      pyTruthy (dictGetS st1.challenge ("realm".toList)) = some realm →
      pyTruthy (dictGetS st1.challenge ("nonce".toList)) = some nonce →
      (build_authorization md5 cnonce st1 method uri).1 =
        some (joinParts (authorizationParts st1.username realm nonce uri
          (md5 ((md5 (st1.username ++ (":".toList) ++ realm ++ (":".toList) ++
              st1.password))
            ++ (":".toList) ++ nonce ++ (":".toList) ++ toHex8 (st1.nc + 1)
            ++ (":".toList) ++ cnonce ++ (":auth:".toList)
            ++ (md5 (method ++ (":".toList) ++ uri))))
          (toHex8 (st1.nc + 1)) cnonce
          (dictGetS st1.challenge ("opaque".toList))))) := by
  constructor
  · simp only [build_authorization, hu, hp, hn, hr, hno, hop]
    rcases pyTruthy (dictGetS st2.challenge ("realm".toList)) with _ | realm <;>
      rcases pyTruthy (dictGetS st2.challenge ("nonce".toList)) with _ | nonce <;>
        rfl
  · intro realm nonce h1 h2
    simp only [build_authorization, h1, h2]

/-- Witness for the C5 amended theorem at concrete inputs: the header built
against the "auth-int"/"SHA-256" challenge equals the header built against
the same challenge with qop and algorithm removed. -/
theorem digest_qop_always_auth_witness :
    (build_authorization (fun _ => ("x".toList)) ("c".toList) exChallengeState
        ("GET".toList) ("/p".toList)).1 =
      (build_authorization (fun _ => ("x".toList)) ("c".toList) exChallengeState2
        ("GET".toList) ("/p".toList)).1 :=
  (digest_qop_always_auth _ _ _ _ _ _ rfl rfl rfl (by decide) (by decide)
    (by decide)).1

/-- C2: `_request` issues at most two HTTP requests per logical call; a
non-401 first response is returned unchanged after a single request; on a
401 the client captures the challenge from the first response's
WWW-Authenticate header, reissues exactly once with an Authorization freshly
computed from the updated digest state, and returns the second response
as-is, even when it is again a 401. -/
theorem request_retries_once_on_401 (md5 : Str → Str) (cnonce1 cnonce2 : Str)
    (st : DigestState) (method path : Str) (server : Nat → HttpResponse) :
    (∀ b : Bool,
      (clientRequest md5 cnonce1 cnonce2 st method path server b).2.2.length ≤ 2) ∧
    ((server 0).status ≠ 401 →
      clientRequest md5 cnonce1 cnonce2 st method path server true =
        (server 0, (build_authorization md5 cnonce1 st method path).2,
         [(build_authorization md5 cnonce1 st method path).1])) ∧
    ((server 0).status = 401 →
      clientRequest md5 cnonce1 cnonce2 st method path server true =
        (server 1,
         (build_authorization md5 cnonce2
            (update_from_header (build_authorization md5 cnonce1 st method path).2
              ((server 0).wwwAuthenticate)) method path).2,
         [(build_authorization md5 cnonce1 st method path).1,
          (build_authorization md5 cnonce2
            (update_from_header (build_authorization md5 cnonce1 st method path).2
              ((server 0).wwwAuthenticate)) method path).1])) := by
  refine ⟨?_, ?_, ?_⟩
  · intro b
    simp only [clientRequest]
    split
    · simp
    · split
      · simp
      · simp
  · intro h
    simp only [clientRequest, if_pos h]
  · intro h
    simp only [clientRequest]
    rw [if_neg (not_not_intro h), if_neg (by simp)]

/-- A transport whose responses are all 401, with a digest challenge on the
first response. -/
def exServer : Nat → HttpResponse := fun i =>
  if i = 0 then
    { status := 401
      wwwAuthenticate := some ("Digest realm=\"r\", nonce=\"n\"".toList) }
  else { status := 401, wwwAuthenticate := none }

/-- Witness for the C2 theorem at a concrete input: against `exServer` the
call issues two requests and hands back the second 401 response as-is. -/
theorem request_retries_once_witness :
    (clientRequest (fun _ => ("x".toList)) ("c1".toList) ("c2".toList)
        { username := "u".toList, password := "p".toList, challenge := [], nc := 0 }
        ("GET".toList) ("/d".toList) exServer true).2.2.length ≤ 2 ∧
    (clientRequest (fun _ => ("x".toList)) ("c1".toList) ("c2".toList)
        { username := "u".toList, password := "p".toList, challenge := [], nc := 0 }
        ("GET".toList) ("/d".toList) exServer true).1 = exServer 1 := by
  have h := request_retries_once_on_401 (fun _ => ("x".toList)) ("c1".toList)
    ("c2".toList)
    { username := "u".toList, password := "p".toList, challenge := [], nc := 0 }
    ("GET".toList) ("/d".toList) exServer
  refine ⟨h.1 true, ?_⟩
  rw [h.2.2 (by decide)]

/-! ## XML documents and the decoders (`parsing.py`)

`xml.etree.ElementTree` element trees, in the first-child/next-sibling
encoding (a plain inductive, so that everything computes): an `Element`
value is a forest whose head is the element itself and whose `rest` is
`nil`; an element's `children` is the forest of its child elements in
document order.  `ET.fromstring` is library code external to the repository
and is a parameter of the embedding (`none` models a raised `ParseError`,
which the source catches). -/

/-- A forest of XML elements: first child / next sibling encoding. -/
inductive XmlF where
  | nil
  | cons (tag : Str) (text : Option Str) (children : XmlF) (rest : XmlF)
deriving DecidableEq

/-- `Element.tag` of the head element. -/
def XmlF.tag : XmlF → Str
  | .nil => []
  | .cons t _ _ _ => t

/-- `Element.text` of the head element. -/
def XmlF.text : XmlF → Option Str
  | .nil => none
  | .cons _ tx _ _ => tx

/-- `Element.iter()` over a forest: each element (as a singleton) before its
subtree, siblings left to right — document order. -/
def iterF : XmlF → List XmlF
  | .nil => []
  | .cons t tx cs rest => .cons t tx cs .nil :: (iterF cs ++ iterF rest)

/-- `local_name`: the part of the tag after the last `}`, when one occurs
(`tag.rsplit("}", 1)[1]`). -/
def localName (tag : Str) : Str :=
  if tag.contains '}' then (tag.reverse.takeWhile (fun c => c != '}')).reverse
  else tag

/-- `first_text(root, tag_name)`: the first element in document order whose
local name matches; its stripped text, with the empty result collapsed to
`None` (`return text or None`). -/
def firstText (root : XmlF) (tagName : Str) : Option Str :=
  match (iterF root).find? (fun e => localName e.tag == tagName) with
  | none => none
  | some e =>
      let t := match e.text with
        | some tx => if tx = [] then [] else stripPy tx
        | none => []
      if t = [] then none else some t

/-- Nonempty all-digit decimal parse. -/
def digitsToNat (s : Str) : Option Nat :=
  if s ≠ [] ∧ s.all Char.isDigit then
    some (s.foldl (fun a c => a * 10 + (c.toNat - 48)) 0)
  else none

/-- Python `int(str)` restricted to an optional ASCII sign followed by
decimal digits (digit-group underscores and non-ASCII digits do not occur in
this device protocol). -/
def pyToInt (s : Str) : Option Int :=
  match s with
  | '+' :: rest => (digitsToNat rest).map (fun n => (n : Int))
  | '-' :: rest => (digitsToNat rest).map (fun n => -(n : Int))
  | _ => (digitsToNat s).map (fun n => (n : Int))

/-- `parse_event_notification`. -/
def parse_event_notification (fromstring : Str → Option XmlF) (payload : Str) :
    Option EventRecord :=
  match fromstring payload with
  | none => none
  | some root =>
      if localName root.tag ≠ ("EventNotificationAlert".toList) then none
      else
        let channelId : Option Int :=
          match firstText root ("channelID".toList) with
          | none => none
          | some t => pyToInt t
        some { event_type := firstText root ("eventType".toList)
               event_state := firstText root ("eventState".toList)
               channel_id := channelId
               target_type := firstText root ("targetType".toList)
               date_time := firstText root ("dateTime".toList) }

/-- Python set insertion (the iteration order is irrelevant after sorting). -/
def setInsert (n : Int) (l : List Int) : List Int :=
  if n ∈ l then l else l ++ [n]

/-- The integer one element contributes to `parse_channel_ids`, if any,
mirroring the guard chain of the loop body: local name one of the two
spellings, truthy text, nonblank when stripped, parseable as int. -/
def channelElemValue (e : XmlF) : Option Int :=
  if localName e.tag ≠ ("channelID".toList) ∧ localName e.tag ≠ ("id".toList)
  then none
  else
    match e.text with
    | none => none
    | some t =>
        if t = [] then none
        else
          let v := stripPy t
          if v = [] then none
          else pyToInt v

/-- `parse_channel_ids`: collect into a set, return sorted ascending. -/
def parse_channel_ids (fromstring : Str → Option XmlF) (payload : Str) :
    List Int :=
  match fromstring payload with
  | none => []
  | some root =>
      let found := (iterF root).foldl
        (fun acc e =>
          match channelElemValue e with
          | none => acc
          | some n => setInsert n acc) []
      found.insertionSort (fun a b => a ≤ b)

/-- C6: for every parse outcome and input, the decoder returns a value and
never propagates an error: `None` when XML parsing fails, `None` when the
root's local name (after stripping any namespace prefix) is not the expected
notification root, and otherwise a record whose channel_id is `None`
whenever the channelID text is absent or not parseable as an integer. -/
theorem decode_event_total (fromstring : Str → Option XmlF) (payload : Str) :
    (fromstring payload = none →
      parse_event_notification fromstring payload = none) ∧
    (∀ root, fromstring payload = some root →
      localName root.tag ≠ ("EventNotificationAlert".toList) →
      parse_event_notification fromstring payload = none) ∧
    (∀ root, fromstring payload = some root →
      localName root.tag = ("EventNotificationAlert".toList) →
      ∃ r : EventRecord, parse_event_notification fromstring payload = some r ∧
        ((firstText root ("channelID".toList) = none ∨
          ∃ t, firstText root ("channelID".toList) = some t ∧ pyToInt t = none) →
          r.channel_id = none)) := by
  refine ⟨?_, ?_, ?_⟩
  · intro h
    simp [parse_event_notification, h]
  · intro root h hn
    simp only [parse_event_notification, h]
    rw [if_pos hn]
  · intro root h he
    simp only [parse_event_notification, h]
    rw [if_neg (not_not_intro he)]
    refine ⟨_, rfl, ?_⟩
    rintro (hch | ⟨t, hch, hti⟩)
    · show (match firstText root ("channelID".toList) with
        | none => none
        | some t => pyToInt t) = none
      rw [hch]
    · show (match firstText root ("channelID".toList) with
        | none => none
        | some t => pyToInt t) = none
      rw [hch]
      exact hti

/-- A notification document whose channelID text is not a parseable
integer. -/
def exEventXml : XmlF :=
  .cons ("EventNotificationAlert".toList) none
    (.cons ("eventType".toList) (some ("VMD".toList)) .nil
      (.cons ("eventState".toList) (some ("active".toList)) .nil
        (.cons ("channelID".toList) (some ("abc".toList)) .nil .nil)))
    .nil

/-- Witness for the C6 theorem at a concrete input: decoding a document with
channelID text "abc" yields a record, and its channel_id is `None`. -/
theorem decode_event_total_witness :
    ((parse_event_notification (fun _ => some exEventXml) []).bind
      (fun r => r.channel_id)) = none := by
  obtain ⟨r, hr, hch⟩ := (decode_event_total (fun _ => some exEventXml) []).2.2
    exEventXml rfl (by decide)
  rw [hr]
  simpa using hch (Or.inr ⟨("abc".toList), by decide, by decide⟩)

lemma setInsert_mem (k n : Int) (l : List Int) :
    k ∈ setInsert n l ↔ k = n ∨ k ∈ l := by
  unfold setInsert
  by_cases h : n ∈ l
  · simp only [if_pos h]
    constructor
    · exact Or.inr
    · rintro (rfl | hk)
      · exact h
      · exact hk
  · simp only [if_neg h, List.mem_append, List.mem_singleton]
    tauto

lemma setInsert_nodup (n : Int) (l : List Int) (h : l.Nodup) :
    (setInsert n l).Nodup := by
  unfold setInsert
  by_cases hn : n ∈ l
  · simp [hn, h]
  · simp [hn, List.nodup_append, h]

lemma mem_foldl_chStep (l : List XmlF) :
    ∀ (acc : List Int) (n : Int),
      (n ∈ l.foldl (fun acc e => match channelElemValue e with
        | none => acc
        | some m => setInsert m acc) acc ↔
      (n ∈ acc ∨ ∃ e ∈ l, channelElemValue e = some n)) := by
  induction l with
  | nil => simp
  | cons e l ih =>
    intro acc n
    rw [List.foldl_cons, ih]
    rcases hv : channelElemValue e with _ | m
    · simp only [hv, List.mem_cons]
      constructor
      · rintro (hacc | ⟨x, hx, hvx⟩)
        · exact Or.inl hacc
        · exact Or.inr ⟨x, Or.inr hx, hvx⟩
      · rintro (hacc | ⟨x, (rfl | hx), hvx⟩)
        · exact Or.inl hacc
        · rw [hv] at hvx
          exact Option.noConfusion hvx
        · exact Or.inr ⟨x, hx, hvx⟩
    · simp only [hv, setInsert_mem, List.mem_cons]
      constructor
      · rintro ((rfl | hacc) | ⟨x, hx, hvx⟩)
        · exact Or.inr ⟨e, Or.inl rfl, hv⟩
        · exact Or.inl hacc
        · exact Or.inr ⟨x, Or.inr hx, hvx⟩
      · rintro (hacc | ⟨x, (rfl | hx), hvx⟩)
        · exact Or.inl (Or.inr hacc)
        · rw [hv] at hvx
          exact Or.inl (Or.inl (Option.some.inj hvx).symm)
        · exact Or.inr ⟨x, hx, hvx⟩

lemma nodup_foldl_chStep (l : List XmlF) :
    ∀ acc : List Int, acc.Nodup →
      (l.foldl (fun acc e => match channelElemValue e with
        | none => acc
        | some m => setInsert m acc) acc).Nodup := by
  induction l with
  | nil => exact fun acc h => h
  | cons e l ih =>
    intro acc h
    rw [List.foldl_cons]
    apply ih
    rcases hv : channelElemValue e with _ | m
    · simpa [hv] using h
    · simp only [hv]
      exact setInsert_nodup m acc h

/-- The discovery response body of the spec's example:
`<channelID>3</channelID><id>1</id><channelID>3</channelID>` under one
wrapping root. -/
def exChannelsXml : XmlF :=
  .cons ("ChannelList".toList) none
    (.cons ("channelID".toList) (some ("3".toList)) .nil
      (.cons ("id".toList) (some ("1".toList)) .nil
        (.cons ("channelID".toList) (some ("3".toList)) .nil .nil)))
    .nil

/-- C8: for every parsed root, `parse_channel_ids` returns exactly the
integers parsed from the text of elements whose local tag name is one of the
two recognized spellings, deduplicated and sorted ascending; elements with
absent, blank or unparseable text contribute nothing without failing the
call; the three-element example yields [1, 3]. -/
theorem decode_channel_ids_spec :
    (∀ (fromstring : Str → Option XmlF) (payload : Str) (root : XmlF),
      fromstring payload = some root →
      (parse_channel_ids fromstring payload).Sorted (fun a b => a ≤ b) ∧
      (parse_channel_ids fromstring payload).Nodup ∧
      (∀ n : Int, n ∈ parse_channel_ids fromstring payload ↔
        ∃ e ∈ iterF root, channelElemValue e = some n)) ∧
    parse_channel_ids (fun _ => some exChannelsXml) [] = [1, 3] := by
  constructor
  · intro fromstring payload root h
    simp only [parse_channel_ids, h]
    refine ⟨?_, ?_, ?_⟩
    · exact List.sorted_insertionSort _ _
    · exact ((List.perm_insertionSort _ _).nodup_iff).2
        (nodup_foldl_chStep _ [] (by simp))
    · intro n
      rw [(List.perm_insertionSort _ _).mem_iff, mem_foldl_chStep]
      simp
  · decide

/-- Witness for the C8 theorem at a concrete input: the example's result is
sorted and contains channel 3, contributed by a channelID element. -/
theorem decode_channel_ids_spec_witness :
    (parse_channel_ids (fun _ => some exChannelsXml) []).Sorted
      (fun a b => a ≤ b) ∧
    ((3 : Int) ∈ parse_channel_ids (fun _ => some exChannelsXml) []) := by
  have h := decode_channel_ids_spec.1 (fun _ => some exChannelsXml) []
    exChannelsXml rfl
  refine ⟨h.1, (h.2.2 3).2 ?_⟩
  exact ⟨.cons ("channelID".toList) (some ("3".toList)) .nil .nil,
    by decide, by decide⟩

/-! ## Document extractor (`parsing.py`, `AlertStreamParser.feed`) -/

/-- `_start_token`. -/
def startTok : Str := "<EventNotificationAlert".toList

/-- `_end_token`. -/
def endTok : Str := "</EventNotificationAlert>".toList

/-- The `while True` loop of `AlertStreamParser.feed`, with explicit fuel:
each iteration that continues consumes at least `endTok.length` characters
of the buffer, so any fuel above the buffer length behaves identically
(`extractLoopF_fuel`), and `extractAll` supplies enough. -/
def extractLoopF : Nat → Str → List Str × Str
  | 0, buf => ([], buf)
  | fuel + 1, buf =>
      match findSub startTok buf with
      | none =>
          ([], if 65536 < buf.length then buf.drop (buf.length - 32768) else buf)
      | some start =>
          match findSub endTok (buf.drop start) with
          | none => ([], if 0 < start then buf.drop start else buf)
          | some rel =>
              let endIdx := start + rel + endTok.length
              let r := extractLoopF fuel (buf.drop endIdx)
              ((buf.drop start).take (rel + endTok.length) :: r.1, r.2)

/-- The extraction loop run to completion on a buffer. -/
def extractAll (buf : Str) : List Str × Str := extractLoopF (buf.length + 1) buf

/-- `AlertStreamParser.feed`: append the chunk to the buffer and run the
loop, returning the extracted documents and the retained buffer.  The
`chunk.decode("utf-8", errors="ignore")` step is abstracted away: chunks
stand for the decoded text. -/
def feedStr (buffer chunk : Str) : List Str × Str := extractAll (buffer ++ chunk)

/-! ### Properties of `findSub` -/

lemma findSub_of_prefix (pat s : Str) (h : pat <+: s) : findSub pat s = some 0 := by
  cases s with
  | nil =>
    have hp : pat = [] := List.prefix_nil.1 h
    simp [findSub, hp]
  | cons c rest =>
    have hp : pat.isPrefixOf (c :: rest) = true := List.isPrefixOf_iff_prefix.2 h
    simp [findSub, hp]

lemma findSub_some_le (pat s : Str) (i : Nat) (h : findSub pat s = some i) :
    i + pat.length ≤ s.length := by
  induction s generalizing i with
  | nil =>
    by_cases hp : pat = ([] : Str)
    · simp only [findSub, if_pos hp] at h
      cases h
      simp [hp]
    · simp only [findSub, if_neg hp] at h
      cases h
  | cons c rest ih =>
    by_cases hp : pat.isPrefixOf (c :: rest) = true
    · simp only [findSub, if_pos hp] at h
      cases h
      simpa using (List.isPrefixOf_iff_prefix.1 hp).length_le
    · simp only [findSub, if_neg hp] at h
      rcases hmap : findSub pat rest with _ | j
      · rw [hmap] at h
        cases h
      · rw [hmap] at h
        simp only [Option.map_some'] at h
        have hi : j + 1 = i := Option.some.inj h
        have hj := ih j hmap
        simp only [List.length_cons]
        omega

lemma findSub_some_prefix (pat s : Str) (i : Nat) (h : findSub pat s = some i) :
    pat <+: s.drop i := by
  induction s generalizing i with
  | nil =>
    by_cases hp : pat = ([] : Str)
    · simp only [findSub, if_pos hp] at h
      cases h
      simp [hp]
    · simp only [findSub, if_neg hp] at h
      cases h
  | cons c rest ih =>
    by_cases hp : pat.isPrefixOf (c :: rest) = true
    · simp only [findSub, if_pos hp] at h
      cases h
      simpa using List.isPrefixOf_iff_prefix.1 hp
    · simp only [findSub, if_neg hp] at h
      rcases hmap : findSub pat rest with _ | j
      · rw [hmap] at h
        cases h
      · rw [hmap] at h
        simp only [Option.map_some'] at h
        cases h
        simpa using ih j hmap

lemma findSub_min (pat s : Str) (i : Nat) (h : findSub pat s = some i) :
    ∀ j, j < i → ¬ pat <+: s.drop j := by
  induction s generalizing i with
  | nil =>
    by_cases hp : pat = ([] : Str)
    · simp only [findSub, if_pos hp] at h
      cases h
      omega
    · simp only [findSub, if_neg hp] at h
      cases h
  | cons c rest ih =>
    by_cases hp : pat.isPrefixOf (c :: rest) = true
    · simp only [findSub, if_pos hp] at h
      cases h
      omega
    · simp only [findSub, if_neg hp] at h
      rcases hmap : findSub pat rest with _ | j0
      · rw [hmap] at h
        cases h
      · rw [hmap] at h
        simp only [Option.map_some'] at h
        cases h
        intro j hj
        cases j with
        | zero =>
          intro hpre
          exact hp (List.isPrefixOf_iff_prefix.2 (by simpa using hpre))
        | succ j' =>
          have := ih j0 hmap j' (by omega)
          simpa using this

lemma findSub_none (pat s : Str) (h : findSub pat s = none) :
    ∀ j, ¬ pat <+: s.drop j := by
  induction s with
  | nil =>
    by_cases hp : pat = ([] : Str)
    · simp only [findSub, if_pos hp] at h
      cases h
    · intro j hpre
      rw [List.drop_nil] at hpre
      exact hp (List.prefix_nil.1 hpre)
  | cons c rest ih =>
    by_cases hp : pat.isPrefixOf (c :: rest) = true
    · simp only [findSub, if_pos hp] at h
      cases h
    · simp only [findSub, if_neg hp] at h
      have hrest : findSub pat rest = none := by
        rcases hmap : findSub pat rest with _ | j
        · rfl
        · rw [hmap] at h
          simp at h
      intro j
      cases j with
      | zero =>
        intro hpre
        exact hp (List.isPrefixOf_iff_prefix.2 (by simpa using hpre))
      | succ j' =>
        have := ih hrest j'
        simpa using this

lemma prefix_drop_of_take (pat s : Str) (n j : Nat)
    (h : pat <+: (s.take n).drop j) : pat <+: s.drop j := by
  rw [List.drop_take] at h
  exact h.trans (List.take_prefix _ _)

lemma startTok_ne_nil : startTok ≠ [] := by decide

lemma endTok_len : endTok.length = 25 := by decide

/-! ### The extraction loop is insensitive to surplus fuel -/

lemma extractLoopF_fuel : ∀ (f1 : Nat) (buf : Str) (f2 : Nat),
    buf.length < f1 → buf.length < f2 →
    extractLoopF f1 buf = extractLoopF f2 buf := by
  intro f1
  induction f1 with
  | zero =>
    intro buf f2 h1 _
    exact absurd h1 (Nat.not_lt_zero _)
  | succ f1 ih =>
    intro buf f2 h1 h2
    cases f2 with
    | zero => exact absurd h2 (Nat.not_lt_zero _)
    | succ f2 =>
      rcases hs : findSub startTok buf with _ | start
      · simp only [extractLoopF, hs]
      · rcases he : findSub endTok (buf.drop start) with _ | rel
        · simp only [extractLoopF, hs, he]
        · simp only [extractLoopF, hs, he]
          have hsl := findSub_some_le startTok buf start hs
          have hel := findSub_some_le endTok (buf.drop start) rel he
          rw [List.length_drop] at hel
          have hrest : (buf.drop (start + rel + endTok.length)).length <
              buf.length := by
            rw [List.length_drop]
            have h25 := endTok_len
            omega
          have hr1 : (buf.drop (start + rel + endTok.length)).length < f1 := by
            rw [List.length_drop] at *
            have h25 := endTok_len
            omega
          have hr2 : (buf.drop (start + rel + endTok.length)).length < f2 := by
            rw [List.length_drop] at *
            have h25 := endTok_len
            omega
          rw [ih (buf.drop (start + rel + endTok.length)) f2 hr1 hr2]

/-! ### One-step unfolding of `extractAll` -/

lemma extractAll_no_start (buf : Str) (h : findSub startTok buf = none) :
    extractAll buf =
      ([], if 65536 < buf.length then buf.drop (buf.length - 32768) else buf) := by
  unfold extractAll
  simp only [extractLoopF, h]

lemma extractAll_no_end (buf : Str) (start : Nat)
    (h1 : findSub startTok buf = some start)
    (h2 : findSub endTok (buf.drop start) = none) :
    extractAll buf = ([], buf.drop start) := by
  unfold extractAll
  simp only [extractLoopF, h1, h2]
  by_cases h : 0 < start
  · rw [if_pos h]
  · rw [if_neg h]
    have h0 : start = 0 := by omega
    rw [h0, List.drop_zero]

lemma extractAll_step (buf : Str) (start rel : Nat)
    (h1 : findSub startTok buf = some start)
    (h2 : findSub endTok (buf.drop start) = some rel) :
    extractAll buf =
      ((buf.drop start).take (rel + endTok.length) ::
          (extractAll (buf.drop (start + rel + endTok.length))).1,
        (extractAll (buf.drop (start + rel + endTok.length))).2) := by
  have hsl := findSub_some_le startTok buf start h1
  have hel := findSub_some_le endTok (buf.drop start) rel h2
  rw [List.length_drop] at hel
  have h25 := endTok_len
  have hstep : extractLoopF (buf.length + 1) buf =
      ((buf.drop start).take (rel + endTok.length) ::
          (extractLoopF buf.length (buf.drop (start + rel + endTok.length))).1,
        (extractLoopF buf.length (buf.drop (start + rel + endTok.length))).2) := by
    simp only [extractLoopF, h1, h2]
  unfold extractAll
  rw [hstep, extractLoopF_fuel buf.length (buf.drop (start + rel + endTok.length))
    ((buf.drop (start + rel + endTok.length)).length + 1)
    (by rw [List.length_drop]; omega) (Nat.lt_succ_self _)]

/-! ### The bounded-buffer guarantee -/

lemma extractAll_no_start_bound : ∀ (n : Nat) (buf : Str), buf.length ≤ n →
    findSub startTok (extractAll buf).2 = none →
    (extractAll buf).2.length ≤ 65536 := by
  intro n
  induction n with
  | zero =>
    intro buf hb _
    have hbuf : buf = [] := List.length_eq_zero.1 (Nat.le_zero.1 hb)
    subst hbuf
    simp [extractAll, extractLoopF, findSub, startTok_ne_nil]
  | succ n ih =>
    intro buf hb hfs
    rcases hs : findSub startTok buf with _ | start
    · rw [extractAll_no_start buf hs]
      by_cases hlen : 65536 < buf.length
      · rw [if_pos hlen]
        simp only [List.length_drop]
        omega
      · rw [if_neg hlen]
        show buf.length ≤ 65536
        omega
    · rcases he : findSub endTok (buf.drop start) with _ | rel
      · rw [extractAll_no_end buf start hs he] at hfs
        have hpre := findSub_some_prefix startTok buf start hs
        have hnone := findSub_none startTok (buf.drop start) hfs 0
        rw [List.drop_zero] at hnone
        exact absurd hpre hnone
      · rw [extractAll_step buf start rel hs he] at hfs ⊢
        apply ih
        · have hsl := findSub_some_le startTok buf start hs
          have hel := findSub_some_le endTok (buf.drop start) rel he
          rw [List.length_drop] at hel
          have h25 := endTok_len
          rw [List.length_drop]
          omega
        · exact hfs

/-- C9: after every `feed` call, if the retained buffer contains no start
marker then its length is at most 65536 characters; and when the scan finds
no start marker in a buffer longer than 65536 characters, the buffer is
truncated to its trailing 32768 characters with no documents emitted. -/
theorem buffer_bound (buffer chunk : Str) :
    (findSub startTok (feedStr buffer chunk).2 = none →
      (feedStr buffer chunk).2.length ≤ 65536) ∧
    (findSub startTok (buffer ++ chunk) = none →
      65536 < (buffer ++ chunk).length →
      feedStr buffer chunk =
        ([], (buffer ++ chunk).drop ((buffer ++ chunk).length - 32768))) := by
  constructor
  · intro h
    exact extractAll_no_start_bound (buffer ++ chunk).length (buffer ++ chunk)
      le_rfl h
  · intro h hlen
    unfold feedStr
    rw [extractAll_no_start _ h, if_pos hlen]

/-- Witness for the C9 theorem at a concrete input: a short junk chunk with
no start marker is retained whole, within the bound. -/
theorem buffer_bound_witness :
    (feedStr [] ("noise".toList)).2.length ≤ 65536 :=
  (buffer_bound [] ("noise".toList)).1 (by decide)

/-! ### Split-invariance for one complete document -/

lemma extractAll_nil : extractAll ([] : Str) = ([], []) := by decide

lemma extractAll_complete (D : Str) (h1 : startTok <+: D)
    (h2 : findSub endTok D = some (D.length - endTok.length)) :
    extractAll D = ([D], []) := by
  have h25 := endTok_len
  have hTle : endTok.length ≤ D.length := by
    have := findSub_some_le endTok D _ h2
    omega
  have hstart : findSub startTok D = some 0 := findSub_of_prefix _ _ h1
  have h2' : findSub endTok (D.drop 0) = some (D.length - endTok.length) := by
    rw [List.drop_zero]
    exact h2
  rw [extractAll_step D 0 (D.length - endTok.length) hstart h2']
  have e1 : 0 + (D.length - endTok.length) + endTok.length = D.length := by omega
  have e2 : D.length - endTok.length + endTok.length = D.length := by omega
  rw [e1, e2, List.drop_zero, List.take_length, List.drop_length, extractAll_nil]

lemma extractAll_prefix_partial (D : Str) (i : Nat) (h1 : startTok <+: D)
    (h2 : findSub endTok D = some (D.length - endTok.length))
    (hi : i < D.length) :
    extractAll (D.take i) = ([], D.take i) := by
  have h25 := endTok_len
  have hTle : endTok.length ≤ D.length := by
    have := findSub_some_le endTok D _ h2
    omega
  have hti : (D.take i).length = min i D.length := List.length_take i D
  by_cases hcase : startTok.length ≤ i
  · have hpre : startTok <+: D.take i := List.prefix_take_iff.2 ⟨h1, hcase⟩
    have hstart : findSub startTok (D.take i) = some 0 := findSub_of_prefix _ _ hpre
    have hend : findSub endTok ((D.take i).drop 0) = none := by
      rw [List.drop_zero]
      rcases hfe : findSub endTok (D.take i) with _ | j
      · rfl
      · exfalso
        have hj := findSub_some_prefix endTok (D.take i) j hfe
        have hjD : endTok <+: D.drop j := prefix_drop_of_take endTok D i j hj
        have hjle := findSub_some_le endTok (D.take i) j hfe
        rw [hti] at hjle
        have hjlt : j < D.length - endTok.length := by omega
        exact findSub_min endTok D _ h2 j hjlt hjD
    rw [extractAll_no_end (D.take i) 0 hstart hend, List.drop_zero]
  · have hs23 : startTok.length = 23 := by decide
    have hstart : findSub startTok (D.take i) = none := by
      rcases hfs : findSub startTok (D.take i) with _ | j
      · rfl
      · exfalso
        have hjle := findSub_some_le startTok (D.take i) j hfs
        rw [hti] at hjle
        omega
    rw [extractAll_no_start _ hstart, if_neg (by omega)]

/-! ### Left-to-right scan-order decomposition -/

/-- Interleave discarded prefixes with emitted documents before a tail. -/
def spansJoin : List (Str × Str) → Str → Str
  | [], tail => tail
  | pd :: rest, tail => pd.1 ++ (pd.2 ++ spansJoin rest tail)

lemma extractAll_decomp : ∀ (n : Nat) (buf : Str), buf.length ≤ n →
    ∃ (pres : List Str) (tail : Str),
      pres.length = (extractAll buf).1.length ∧
      buf = spansJoin (pres.zip (extractAll buf).1) tail ∧
      (extractAll buf).2 <:+ tail := by
  intro n
  induction n with
  | zero =>
    intro buf hb
    have hbuf : buf = [] := List.length_eq_zero.1 (Nat.le_zero.1 hb)
    subst hbuf
    rw [extractAll_nil]
    exact ⟨[], [], rfl, rfl, List.suffix_refl _⟩
  | succ n ih =>
    intro buf hb
    rcases hs : findSub startTok buf with _ | start
    · rw [extractAll_no_start buf hs]
      refine ⟨[], buf, rfl, rfl, ?_⟩
      dsimp only
      by_cases hlen : 65536 < buf.length
      · rw [if_pos hlen]
        exact List.drop_suffix _ _
      · rw [if_neg hlen]
    · rcases he : findSub endTok (buf.drop start) with _ | rel
      · rw [extractAll_no_end buf start hs he]
        exact ⟨[], buf, rfl, rfl, List.drop_suffix _ _⟩
      · have h25 := endTok_len
        have hsl := findSub_some_le startTok buf start hs
        have hel := findSub_some_le endTok (buf.drop start) rel he
        rw [List.length_drop] at hel
        have hlen_rest : (buf.drop (start + rel + endTok.length)).length ≤ n := by
          rw [List.length_drop]
          omega
        obtain ⟨pres', tail', hlen', heq', hsuf'⟩ :=
          ih (buf.drop (start + rel + endTok.length)) hlen_rest
        rw [extractAll_step buf start rel hs he]
        refine ⟨buf.take start :: pres', tail', ?_, ?_, hsuf'⟩
        · simpa using hlen'
        · show buf = buf.take start ++
            ((buf.drop start).take (rel + endTok.length) ++
              spansJoin (pres'.zip
                ((extractAll (buf.drop (start + rel + endTok.length))).1)) tail')
          rw [← heq']
          have hassoc : start + rel + endTok.length =
              start + (rel + endTok.length) := by omega
          rw [hassoc, ← List.drop_drop, List.take_append_drop,
            List.take_append_drop]

/-- A complete notification document for concrete evaluation. -/
def exDoc : Str := "<EventNotificationAlert><x/></EventNotificationAlert>".toList

/-- C3: feeding a complete notification document (a string with the start
marker as prefix whose only end-marker occurrence closes it) split at any
position to a fresh extractor yields in total exactly the one document that
feeding it whole yields; and on any input the emitted documents decompose
the processed buffer in left-to-right scan order, each consumed together
with the bytes preceding its start marker, the retained buffer being a
suffix of what remains after the last document. -/
theorem extractor_split_and_order :
    (∀ (D : Str) (i : Nat), startTok <+: D →
      findSub endTok D = some (D.length - endTok.length) → i ≤ D.length →
      feedStr [] D = ([D], []) ∧
      (feedStr [] (D.take i)).1 ++
        (feedStr (feedStr [] (D.take i)).2 (D.drop i)).1 = [D]) ∧
    (∀ buffer chunk : Str, ∃ (pres : List Str) (tail : Str),
      pres.length = (feedStr buffer chunk).1.length ∧
      buffer ++ chunk = spansJoin (pres.zip (feedStr buffer chunk).1) tail ∧
      (feedStr buffer chunk).2 <:+ tail) := by
  constructor
  · intro D i h1 h2 hi
    have hfull : feedStr [] D = ([D], []) := by
      unfold feedStr
      rw [List.nil_append]
      exact extractAll_complete D h1 h2
    refine ⟨hfull, ?_⟩
    rcases Nat.lt_or_ge i D.length with hlt | hge
    · have hpart : feedStr [] (D.take i) = ([], D.take i) := by
        unfold feedStr
        rw [List.nil_append]
        exact extractAll_prefix_partial D i h1 h2 hlt
      rw [hpart]
      show [] ++ (feedStr (D.take i) (D.drop i)).1 = [D]
      unfold feedStr
      rw [List.take_append_drop, extractAll_complete D h1 h2]
      rfl
    · have hieq : i = D.length := le_antisymm hi hge
      subst hieq
      rw [List.take_length, hfull, List.drop_length]
      show [D] ++ (feedStr [] []).1 = [D]
      have hnil : feedStr [] [] = ([], []) := extractAll_nil
      rw [hnil]
      rfl
  · intro buffer chunk
    exact extractAll_decomp (buffer ++ chunk).length (buffer ++ chunk) le_rfl

/-- Witness for the C3 theorem at a concrete input: the 53-character example
document split at position 10 yields exactly the whole-document result. -/
theorem extractor_split_and_order_witness :
    feedStr [] exDoc = ([exDoc], []) ∧
    (feedStr [] (exDoc.take 10)).1 ++
      (feedStr (feedStr [] (exDoc.take 10)).2 (exDoc.drop 10)).1 = [exDoc] :=
  extractor_split_and_order.1 exDoc 10 (by decide) (by decide) (by decide)

end HikVerify
